import Mathlib

/-!
Verification development for the Lax-Friedrichs shallow-water stepper
(`GPUSimulators/LxF.py`).

The driver code (`LxF.stepEuler`, `LxF.simulate`) is embedded directly from
the source.  The per-cell CUDA stencil (`LxF_kernel.cu`), the base-class
simulation loop (`BaseSimulator.simulateEuler`), the buffer-pair `swap` and
the construction-time dimension check live outside the provided source tree;
those are modelled from the specification text, as marked on each definition.

Numbers are modelled as exact rationals; grids are ℤ-indexed fields of the
three conserved quantities.
-/

namespace SW

/-- One cell's conserved quantities: depth `h`, momenta `hu`, `hv`. -/
structure Cons where
  h : ℚ
  hu : ℚ
  hv : ℚ
deriving DecidableEq, Repr

/-- One generation of the grid: the three conserved fields over cell
indices `(i, j)`, ghost cells included (interior is `1 ≤ i ≤ nx`,
`1 ≤ j ≤ ny`, ghosts at `0` and `nx+1` / `ny+1`). -/
structure SWField where
  h : ℤ → ℤ → ℚ
  hu : ℤ → ℤ → ℚ
  hv : ℤ → ℤ → ℚ

/-- The triple stored at cell `(i, j)`. -/
def cellAt (U : SWField) (i j : ℤ) : Cons :=
  ⟨U.h i j, U.hu i j, U.hv i j⟩

/-- Scheme parameters, immutable for a run: grid dimensions `nx`, `ny`,
spacings `dx`, `dy`, gravity `g`, and the zero-depth guard threshold
`eps` (the spec's "small positive epsilon"). -/
structure Params where
  nx : ℕ
  ny : ℕ
  dx : ℚ
  dy : ℚ
  g : ℚ
  eps : ℚ
deriving DecidableEq, Repr

/-- Interior cell predicate: one ghost layer on each side. -/
def isInterior (p : Params) (i j : ℤ) : Prop :=
  1 ≤ i ∧ i ≤ (p.nx : ℤ) ∧ 1 ≤ j ∧ j ≤ (p.ny : ℤ)

instance (p : Params) (i j : ℤ) : Decidable (isInterior p i j) := by
  unfold isInterior; infer_instance

/-- Modelled from the spec: guarded velocity of the stencil kernel
(`LxF_kernel.cu`, not in the source tree).  "when local `h` is at or below
a small positive epsilon, momentum/h divisions must be guarded (treat
velocity as zero)". -/
def vel (eps h m : ℚ) : ℚ :=
  if h ≤ eps then 0 else m / h

/-- Modelled from the spec: x-direction shallow-water flux
`F = [hu, hu²/h + g·h²/2, hu·hv/h]`, with the momentum/h divisions guarded
(velocity `u = hu/h`, `v = hv/h` taken as zero at guarded depth). -/
def fluxF (g eps : ℚ) (q : Cons) : Cons :=
  ⟨q.hu, q.hu * vel eps q.h q.hu + g * q.h * q.h / 2, q.hu * vel eps q.h q.hv⟩

/-- Modelled from the spec: y-direction shallow-water flux
`G = [hv, hu·hv/h, hv²/h + g·h²/2]`, with guarded divisions. -/
def fluxG (g eps : ℚ) (q : Cons) : Cons :=
  ⟨q.hv, q.hv * vel eps q.h q.hu, q.hv * vel eps q.h q.hv + g * q.h * q.h / 2⟩

/-- Modelled from the spec: the per-cell Lax-Friedrichs update of
`LxF_kernel.cu` (not in the source tree), from the four axis neighbors
West `(i-1,j)`, East `(i+1,j)`, South `(i,j-1)`, North `(i,j+1)`:
average of the neighbors minus centered flux differences. -/
def lxfUpdate (dx dy dt g eps : ℚ) (W E S N : Cons) : Cons :=
  let fE := fluxF g eps E
  let fW := fluxF g eps W
  let gN := fluxG g eps N
  let gS := fluxG g eps S
  ⟨0.25 * (W.h + E.h + S.h + N.h)
     - dt / (2 * dx) * (fE.h - fW.h) - dt / (2 * dy) * (gN.h - gS.h),
   0.25 * (W.hu + E.hu + S.hu + N.hu)
     - dt / (2 * dx) * (fE.hu - fW.hu) - dt / (2 * dy) * (gN.hu - gS.hu),
   0.25 * (W.hv + E.hv + S.hv + N.hv)
     - dt / (2 * dx) * (fE.hv - fW.hv) - dt / (2 * dy) * (gN.hv - gS.hv)⟩

/-- The stencil applied at cell `(i, j)` of a field `U`. -/
def lxfCell (p : Params) (dt : ℚ) (U : SWField) (i j : ℤ) : Cons :=
  lxfUpdate p.dx p.dy dt p.g p.eps
    (cellAt U (i - 1) j) (cellAt U (i + 1) j)
    (cellAt U i (j - 1)) (cellAt U i (j + 1))

/-- Modelled from the spec: the full-grid effect of the kernel launch in
`LxF.stepEuler` (the kernel body is not in the source tree): every interior
cell of the "next" buffer receives the stencil of the "current" buffer;
cells outside the interior keep the "next" buffer's previous contents. -/
def kernelLxF (p : Params) (dt : ℚ) (cur nxt : SWField) : SWField :=
  { h := fun i j => if isInterior p i j then (lxfCell p dt cur i j).h else nxt.h i j
    hu := fun i j => if isInterior p i j then (lxfCell p dt cur i j).hu else nxt.hu i j
    hv := fun i j => if isInterior p i j then (lxfCell p dt cur i j).hv else nxt.hv i j }

/-- The double-buffered grid state: two storage slots `a` and `b`
(`h0/hu0/hv0` and `h1/hu1/hv1` in the source) and a flag recording which
slot currently plays the "current" role. -/
structure BufferPair where
  a : SWField
  b : SWField
  curIsA : Bool

/-- The buffer currently playing the "current" (read) role. -/
def BufferPair.current (bp : BufferPair) : SWField :=
  if bp.curIsA then bp.a else bp.b

/-- The buffer currently playing the "next" (write) role. -/
def BufferPair.next (bp : BufferPair) : SWField :=
  if bp.curIsA then bp.b else bp.a

/-- Overwrite the contents of the slot playing the "next" role. -/
def BufferPair.writeNext (bp : BufferPair) (f : SWField) : BufferPair :=
  if bp.curIsA then { bp with b := f } else { bp with a := f }

/-- Modelled from the spec: `data.swap()` of the base simulator (not in the
source tree) exchanges the roles of the two generations in O(1), a pure
reference exchange with no data copy. -/
def BufferPair.swap (bp : BufferPair) : BufferPair :=
  { bp with curIsA := !bp.curIsA }

/-- Full simulator state: the buffer pair and the simulation clock `t`. -/
structure SimState where
  data : BufferPair
  t : ℚ

namespace LxF

/-- `LxF.stepEuler(dt)` from the source: launch the LxF kernel (reading the
0-buffers, writing the 1-buffers), then `self.data.swap()`, then
`self.t += dt`. -/
def stepEuler (p : Params) (dt : ℚ) (s : SimState) : SimState :=
  { data := (s.data.writeNext (kernelLxF p dt s.data.current s.data.next)).swap
    t := s.t + dt }

end LxF

/-- Modelled from the spec: `BaseSimulator.simulateEuler(t_end)` (not in the
source tree).  While `t < t_end`, clamp the configured step to
`min(dt, t_end - t)` and invoke `stepEuler` with the clamped value.  A fuel
argument bounds the number of iterations; running out of fuel stops the
loop early. -/
def simulateEuler (p : Params) (dt tEnd : ℚ) (s : SimState) : ℕ → SimState
  | 0 => s
  | n + 1 =>
    if s.t < tEnd then
      simulateEuler p dt tEnd (LxF.stepEuler p (min dt (tEnd - s.t)) s) n
    else s

namespace LxF

/-- `LxF.simulate(t_end)` from the source: delegates to the base class's
`simulateEuler`. -/
def simulate (p : Params) (dt tEnd : ℚ) (s : SimState) (fuel : ℕ) : SimState :=
  simulateEuler p dt tEnd s fuel

end LxF

/-- The sequence of clamped step sizes the loop applies: mirrors the clock
evolution of `simulateEuler`. -/
def clampedDts (dt tEnd t : ℚ) : ℕ → List ℚ
  | 0 => []
  | n + 1 =>
    if t < tEnd then
      min dt (tEnd - t) :: clampedDts dt tEnd (t + min dt (tEnd - t)) n
    else []

/-- Construction-time error taxonomy. -/
inductive SimError where
  | DimensionMismatch
deriving DecidableEq, Repr

/-- A field read out of a flat row-major array of length `(nx+2)*(ny+2)`
(ghost cells included), row width `nx+2`. -/
def fieldOfList (nx : ℕ) (xs : List ℚ) : ℤ → ℤ → ℚ :=
  fun i j => xs.getD (j * ((nx : ℤ) + 2) + i).toNat 0

/-- Modelled from the spec: `initialize(h0, hu0, hv0)` of the Grid Buffer
Pair (the dimension check lives in the base simulator, not in the source
tree): constructs both generations from caller-supplied arrays of size
`(nx+2)*(ny+2)`, and fails with `DimensionMismatch` if the array sizes do
not match. -/
def initSim (nx ny : ℕ) (h0 hu0 hv0 : List ℚ) : Except SimError SimState :=
  if h0.length = (nx + 2) * (ny + 2) ∧ hu0.length = (nx + 2) * (ny + 2) ∧
      hv0.length = (nx + 2) * (ny + 2) then
    .ok
      { data :=
          { a := ⟨fieldOfList nx h0, fieldOfList nx hu0, fieldOfList nx hv0⟩
            b := ⟨fieldOfList nx h0, fieldOfList nx hu0, fieldOfList nx hv0⟩
            curIsA := true }
        t := 0 }
  else .error .DimensionMismatch

/-! ### NaN-aware arithmetic for the zero-depth guard

`Option ℚ` models a floating value that may be NaN/Inf: `none` marks the
result of a division by zero.  The guarded kernel below is the same
computation as `vel`/`fluxF`/`fluxG`/`lxfUpdate`, but every division is
checked, so definedness of its result is exactly absence of NaN/Inf. -/

/-- Guarded velocity in NaN-aware arithmetic: the guard fires first; a
division that does reach a zero depth yields `none` (NaN). -/
def ovel (eps h m : ℚ) : Option ℚ :=
  if h ≤ eps then some 0 else if h = 0 then none else some (m / h)

/-- NaN-aware x-flux. -/
def fluxFO (g eps : ℚ) (q : Cons) : Option Cons :=
  (ovel eps q.h q.hu).bind fun u =>
    (ovel eps q.h q.hv).bind fun v =>
      some ⟨q.hu, q.hu * u + g * q.h * q.h / 2, q.hu * v⟩

/-- NaN-aware y-flux. -/
def fluxGO (g eps : ℚ) (q : Cons) : Option Cons :=
  (ovel eps q.h q.hu).bind fun u =>
    (ovel eps q.h q.hv).bind fun v =>
      some ⟨q.hv, q.hv * u, q.hv * v + g * q.h * q.h / 2⟩

/-- NaN-aware per-cell LxF update. -/
def lxfUpdateO (dx dy dt g eps : ℚ) (W E S N : Cons) : Option Cons :=
  (fluxFO g eps E).bind fun fE =>
    (fluxFO g eps W).bind fun fW =>
      (fluxGO g eps N).bind fun gN =>
        (fluxGO g eps S).bind fun gS =>
          some
            ⟨0.25 * (W.h + E.h + S.h + N.h)
               - dt / (2 * dx) * (fE.h - fW.h) - dt / (2 * dy) * (gN.h - gS.h),
             0.25 * (W.hu + E.hu + S.hu + N.hu)
               - dt / (2 * dx) * (fE.hu - fW.hu) - dt / (2 * dy) * (gN.hu - gS.hu),
             0.25 * (W.hv + E.hv + S.hv + N.hv)
               - dt / (2 * dx) * (fE.hv - fW.hv) - dt / (2 * dy) * (gN.hv - gS.hv)⟩

/-- NaN-aware value of the cell `(i, j)` of the next generation after one
kernel launch: interior cells run the stencil, other cells keep the old
"next" contents (a definite value). -/
def kernelLxFO (p : Params) (dt : ℚ) (cur nxt : SWField) (i j : ℤ) : Option Cons :=
  if isInterior p i j then
    lxfUpdateO p.dx p.dy dt p.g p.eps
      (cellAt cur (i - 1) j) (cellAt cur (i + 1) j)
      (cellAt cur i (j - 1)) (cellAt cur i (j + 1))
  else some (cellAt nxt i j)

/-! ### Spec-side stencil formula

These definitions transcribe the update rule exactly as the specification
prints it (raw, unguarded divisions), to be compared with the guarded
kernel model above. -/

/-- The spec's x-flux `F = [hu, hu²/h + g·h²/2, hu·hv/h]`, raw divisions. -/
def fluxF_spec (g : ℚ) (q : Cons) : Cons :=
  ⟨q.hu, q.hu * q.hu / q.h + g * q.h * q.h / 2, q.hu * q.hv / q.h⟩

/-- The spec's y-flux `G = [hv, hu·hv/h, hv²/h + g·h²/2]`, raw divisions. -/
def fluxG_spec (g : ℚ) (q : Cons) : Cons :=
  ⟨q.hv, q.hu * q.hv / q.h, q.hv * q.hv / q.h + g * q.h * q.h / 2⟩

/-- The spec's update rule
`U_next[i,j] = 0.25*(U[i-1,j]+U[i+1,j]+U[i,j-1]+U[i,j+1])
 - dt/(2*dx)*(F(U[i+1,j]) - F(U[i-1,j])) - dt/(2*dy)*(G(U[i,j+1]) - G(U[i,j-1]))`. -/
def lxfCell_spec (p : Params) (dt : ℚ) (U : SWField) (i j : ℤ) : Cons :=
  let W := cellAt U (i - 1) j
  let E := cellAt U (i + 1) j
  let S := cellAt U i (j - 1)
  let N := cellAt U i (j + 1)
  let fE := fluxF_spec p.g E
  let fW := fluxF_spec p.g W
  let gN := fluxG_spec p.g N
  let gS := fluxG_spec p.g S
  ⟨0.25 * (W.h + E.h + S.h + N.h)
     - dt / (2 * p.dx) * (fE.h - fW.h) - dt / (2 * p.dy) * (gN.h - gS.h),
   0.25 * (W.hu + E.hu + S.hu + N.hu)
     - dt / (2 * p.dx) * (fE.hu - fW.hu) - dt / (2 * p.dy) * (gN.hu - gS.hu),
   0.25 * (W.hv + E.hv + S.hv + N.hv)
     - dt / (2 * p.dx) * (fE.hv - fW.hv) - dt / (2 * p.dy) * (gN.hv - gS.hv)⟩

/-! ### Periodic (torus) configuration

A closed/periodic boundary configuration: the base simulator populates the
ghost cells from the opposite edge, which is the same as running the very
stencil on a torus.  `PeriodicField` indexes cells by `ZMod n × ZMod m`. -/

/-- One generation of a periodic grid. -/
structure PeriodicField (n m : ℕ) where
  h : ZMod n → ZMod m → ℚ
  hu : ZMod n → ZMod m → ℚ
  hv : ZMod n → ZMod m → ℚ

/-- The triple at a torus cell. -/
def pcellAt {n m : ℕ} (c : PeriodicField n m) (i : ZMod n) (j : ZMod m) : Cons :=
  ⟨c.h i j, c.hu i j, c.hv i j⟩

/-- One LxF step on the torus: every cell is interior, neighbors wrap. -/
def stepPeriodic (n m : ℕ) (dx dy dt g eps : ℚ) (c : PeriodicField n m) :
    PeriodicField n m :=
  { h := fun i j =>
      (lxfUpdate dx dy dt g eps (pcellAt c (i - 1) j) (pcellAt c (i + 1) j)
        (pcellAt c i (j - 1)) (pcellAt c i (j + 1))).h
    hu := fun i j =>
      (lxfUpdate dx dy dt g eps (pcellAt c (i - 1) j) (pcellAt c (i + 1) j)
        (pcellAt c i (j - 1)) (pcellAt c i (j + 1))).hu
    hv := fun i j =>
      (lxfUpdate dx dy dt g eps (pcellAt c (i - 1) j) (pcellAt c (i + 1) j)
        (pcellAt c i (j - 1)) (pcellAt c i (j + 1))).hv }

/-- Spatial sum of the depth `h` over all cells of a periodic grid. -/
def sumH (n m : ℕ) [NeZero n] [NeZero m] (c : PeriodicField n m) : ℚ :=
  ∑ i : ZMod n, ∑ j : ZMod m, c.h i j

/-- The ℤ-indexed grid obtained from a periodic core: interior cell `(i,j)`
holds core cell `(i-1, j-1)` (wrapped), so the ghost layer automatically
carries the opposite edge — the closed/periodic boundary configuration. -/
def extendP {n m : ℕ} (c : PeriodicField n m) : SWField :=
  { h := fun i j => c.h ((i - 1 : ℤ) : ZMod n) ((j - 1 : ℤ) : ZMod m)
    hu := fun i j => c.hu ((i - 1 : ℤ) : ZMod n) ((j - 1 : ℤ) : ZMod m)
    hv := fun i j => c.hv ((i - 1 : ℤ) : ZMod n) ((j - 1 : ℤ) : ZMod m) }

/-! ### Concrete instances used to exercise the theorems -/

/-- All-zero field. -/
def zeroField : SWField := ⟨fun _ _ => 0, fun _ _ => 0, fun _ _ => 0⟩

/-- Still water of unit depth: `h = 1`, `hu = hv = 0` everywhere. -/
def oneField : SWField := ⟨fun _ _ => 1, fun _ _ => 0, fun _ _ => 0⟩

/-- Dry bed with nonzero momentum: `h = 0`, `hu = 1` everywhere. -/
def dryField : SWField := ⟨fun _ _ => 0, fun _ _ => 1, fun _ _ => 0⟩

/-- A small parameter set. -/
def p0 : Params := ⟨2, 2, 1, 1, 981 / 100, 1 / 1000000⟩

/-- The end-to-end scenario's parameters: 4×4 interior, `dx = dy = 1`,
`g = 9.81`. -/
def p4 : Params := ⟨4, 4, 1, 1, 981 / 100, 1 / 1000000⟩

/-- All-zero start state. -/
def s0 : SimState := ⟨⟨zeroField, zeroField, true⟩, 0⟩

/-- The end-to-end scenario's start state: still water of unit depth,
`t = 0`. -/
def s4 : SimState := ⟨⟨oneField, zeroField, true⟩, 0⟩

/-- Dry-bed start state. -/
def sDry : SimState := ⟨⟨dryField, zeroField, true⟩, 0⟩

/-- Constant-depth periodic core on a 2×2 torus. -/
def cPer : PeriodicField 2 2 :=
  ⟨fun _ _ => 3, fun _ _ => 5, fun _ _ => 7⟩

/-- Simulator state whose current generation is the periodic extension of
`cPer`. -/
def sExt : SimState := ⟨⟨extendP cPer, zeroField, true⟩, 0⟩

end SW

namespace SW

/-! ### Basic lemmas about the buffer pair and the step driver -/

theorem writeNext_current (bp : BufferPair) (f : SWField) :
    (bp.writeNext f).current = bp.current := by
  cases bp with
  | mk a b c =>
    cases c <;> simp [BufferPair.writeNext, BufferPair.current]

theorem writeNext_next (bp : BufferPair) (f : SWField) :
    (bp.writeNext f).next = f := by
  cases bp with
  | mk a b c =>
    cases c <;> simp [BufferPair.writeNext, BufferPair.next]

theorem swap_current (bp : BufferPair) : bp.swap.current = bp.next := by
  cases bp with
  | mk a b c =>
    cases c <;> simp [BufferPair.swap, BufferPair.current, BufferPair.next]

theorem swap_next (bp : BufferPair) : bp.swap.next = bp.current := by
  cases bp with
  | mk a b c =>
    cases c <;> simp [BufferPair.swap, BufferPair.current, BufferPair.next]

theorem stepEuler_t (p : Params) (dt : ℚ) (s : SimState) :
    (LxF.stepEuler p dt s).t = s.t + dt := rfl

theorem stepEuler_current (p : Params) (dt : ℚ) (s : SimState) :
    (LxF.stepEuler p dt s).data.current
      = kernelLxF p dt s.data.current s.data.next := by
  unfold LxF.stepEuler
  rw [swap_current, writeNext_next]

theorem stepEuler_next (p : Params) (dt : ℚ) (s : SimState) :
    (LxF.stepEuler p dt s).data.next = s.data.current := by
  unfold LxF.stepEuler
  rw [swap_next, writeNext_current]

theorem kernelLxF_interior (p : Params) (dt : ℚ) (cur nxt : SWField) (i j : ℤ)
    (hij : isInterior p i j) :
    cellAt (kernelLxF p dt cur nxt) i j = lxfCell p dt cur i j := by
  simp [kernelLxF, cellAt, lxfCell, if_pos hij]

theorem kernelLxF_ghost (p : Params) (dt : ℚ) (cur nxt : SWField) (i j : ℤ)
    (hij : ¬ isInterior p i j) :
    cellAt (kernelLxF p dt cur nxt) i j = cellAt nxt i j := by
  simp [kernelLxF, cellAt, if_neg hij]

/-- C1. `stepEuler(dt)` performs exactly: kernel launch (stencil on every
interior cell, reading only the "current" generation, writing only the
"next" generation), then the buffer swap, then the clock advance
`t_after = t_before + dt`. -/
theorem C1_stepEuler_order (p : Params) (dt : ℚ) (s : SimState) :
    (LxF.stepEuler p dt s).t = s.t + dt
    ∧ (LxF.stepEuler p dt s).data
        = (s.data.writeNext (kernelLxF p dt s.data.current s.data.next)).swap
    ∧ (∀ f, (s.data.writeNext f).current = s.data.current)
    ∧ (∀ cur n1 n2 i j, isInterior p i j →
        cellAt (kernelLxF p dt cur n1) i j = cellAt (kernelLxF p dt cur n2) i j)
    ∧ (∀ i j, isInterior p i j →
        cellAt ((LxF.stepEuler p dt s).data.current) i j
          = lxfCell p dt s.data.current i j)
    ∧ (∀ i j, ¬ isInterior p i j →
        cellAt (kernelLxF p dt s.data.current s.data.next) i j
          = cellAt s.data.next i j) := by
  refine ⟨rfl, rfl, fun f => writeNext_current s.data f, ?_, ?_, ?_⟩
  · intro cur n1 n2 i j hij
    rw [kernelLxF_interior p dt cur n1 i j hij, kernelLxF_interior p dt cur n2 i j hij]
  · intro i j hij
    rw [stepEuler_current, kernelLxF_interior _ _ _ _ _ _ hij]
  · intro i j hij
    exact kernelLxF_ghost p dt s.data.current s.data.next i j hij

/-- Exercises `C1_stepEuler_order` on the concrete still-water state: the
clock advances by `dt` and interior cell `(1, 1)` of the new current
generation holds the stencil value. -/
theorem C1_stepEuler_order_witness :
    (LxF.stepEuler p0 (1 / 100) s0).t = s0.t + 1 / 100
    ∧ cellAt ((LxF.stepEuler p0 (1 / 100) s0).data.current) 1 1
        = lxfCell p0 (1 / 100) s0.data.current 1 1 :=
  ⟨(C1_stepEuler_order p0 (1 / 100) s0).1,
   (C1_stepEuler_order p0 (1 / 100) s0).2.2.2.2.1 1 1 (by decide)⟩

/-- C5. After `stepEuler(dt)` the slot that played "next" plays "current"
and vice versa; two steps restore the original role assignment; `swap` is
an involutive O(1) role exchange that copies no data. -/
theorem C5_swap_pingpong (p : Params) (dt : ℚ) (s : SimState) :
    (LxF.stepEuler p dt s).data.curIsA = !s.data.curIsA
    ∧ (LxF.stepEuler p dt (LxF.stepEuler p dt s)).data.curIsA = s.data.curIsA
    ∧ (LxF.stepEuler p dt s).data.next = s.data.current
    ∧ (∀ bp : BufferPair, bp.swap.swap = bp)
    ∧ (∀ bp : BufferPair, bp.swap.a = bp.a ∧ bp.swap.b = bp.b) := by
  refine ⟨?_, ?_, stepEuler_next p dt s, ?_, ?_⟩
  · cases hs : s.data.curIsA <;>
      simp [LxF.stepEuler, BufferPair.swap, BufferPair.writeNext, hs]
  · cases hs : s.data.curIsA <;>
      simp [LxF.stepEuler, BufferPair.swap, BufferPair.writeNext, hs]
  · intro bp
    simp [BufferPair.swap]
  · intro bp
    simp [BufferPair.swap]

/-- C10. `stepEuler` is deterministic: two runs agreeing on the scheme
parameters, the clock, the generation role assignment and the contents of
the "current" generation agree, after the step, on the clock, the role
assignment, the whole "next" generation and every interior cell of the
"current" generation. -/
theorem C10_deterministic (p : Params) (dt : ℚ) (s s' : SimState)
    (ht : s.t = s'.t) (hrole : s.data.curIsA = s'.data.curIsA)
    (hcur : ∀ i j, cellAt s.data.current i j = cellAt s'.data.current i j) :
    (LxF.stepEuler p dt s).t = (LxF.stepEuler p dt s').t
    ∧ (LxF.stepEuler p dt s).data.curIsA = (LxF.stepEuler p dt s').data.curIsA
    ∧ (∀ i j, cellAt ((LxF.stepEuler p dt s).data.next) i j
        = cellAt ((LxF.stepEuler p dt s').data.next) i j)
    ∧ (∀ i j, isInterior p i j →
        cellAt ((LxF.stepEuler p dt s).data.current) i j
          = cellAt ((LxF.stepEuler p dt s').data.current) i j) := by
  have hcellW : ∀ i j, lxfCell p dt s.data.current i j
      = lxfCell p dt s'.data.current i j := by
    intro i j
    unfold lxfCell
    rw [hcur, hcur, hcur, hcur]
  refine ⟨?_, ?_, ?_, ?_⟩
  · rw [stepEuler_t, stepEuler_t, ht]
  · cases hs : s.data.curIsA <;> rw [hs] at hrole <;>
      simp [LxF.stepEuler, BufferPair.swap, BufferPair.writeNext, hs, ← hrole]
  · intro i j
    rw [stepEuler_next, stepEuler_next]
    exact hcur i j
  · intro i j hij
    rw [stepEuler_current, stepEuler_current,
      kernelLxF_interior _ _ _ _ _ _ hij, kernelLxF_interior _ _ _ _ _ _ hij]
    exact hcellW i j

theorem vel_zero (eps h : ℚ) : vel eps h 0 = 0 := by
  unfold vel
  split <;> simp

theorem fluxF_eq_spec (g eps : ℚ) (q : Cons) (hq : eps < q.h) :
    fluxF g eps q = fluxF_spec g q := by
  have hgt : ¬ q.h ≤ eps := not_le.mpr hq
  unfold fluxF fluxF_spec vel
  rw [if_neg hgt, if_neg hgt]
  simp only [Cons.mk.injEq, true_and]
  exact ⟨by ring, by ring⟩

theorem fluxG_eq_spec (g eps : ℚ) (q : Cons) (hq : eps < q.h) :
    fluxG g eps q = fluxG_spec g q := by
  have hgt : ¬ q.h ≤ eps := not_le.mpr hq
  unfold fluxG fluxG_spec vel
  rw [if_neg hgt, if_neg hgt]
  simp only [Cons.mk.injEq, true_and]
  exact ⟨by ring, by ring⟩

/-- C3. On interior cells whose four axis neighbors are above the guard
threshold, one step realizes exactly the spec's update rule with the raw
shallow-water fluxes `F` and `G`, evaluated on the "current" generation. -/
theorem C3_stencil_formula (p : Params) (dt : ℚ) (s : SimState) (i j : ℤ)
    (hW : p.eps < s.data.current.h (i - 1) j)
    (hE : p.eps < s.data.current.h (i + 1) j)
    (hS : p.eps < s.data.current.h i (j - 1))
    (hN : p.eps < s.data.current.h i (j + 1))
    (hij : isInterior p i j) :
    cellAt ((LxF.stepEuler p dt s).data.current) i j
      = lxfCell_spec p dt s.data.current i j := by
  rw [stepEuler_current, kernelLxF_interior _ _ _ _ _ _ hij]
  simp only [lxfCell, lxfCell_spec, lxfUpdate]
  rw [fluxF_eq_spec _ _ _ hE, fluxF_eq_spec _ _ _ hW,
    fluxG_eq_spec _ _ _ hN, fluxG_eq_spec _ _ _ hS]

/-- Exercises `C3_stencil_formula` on the unit-depth state at cell
`(2, 2)`. -/
theorem C3_stencil_formula_witness :
    cellAt ((LxF.stepEuler p4 (1 / 100) s4).data.current) 2 2
      = lxfCell_spec p4 (1 / 100) s4.data.current 2 2 :=
  C3_stencil_formula p4 (1 / 100) s4 2 2
    (by norm_num [p4, s4, oneField, BufferPair.current])
    (by norm_num [p4, s4, oneField, BufferPair.current])
    (by norm_num [p4, s4, oneField, BufferPair.current])
    (by norm_num [p4, s4, oneField, BufferPair.current]) (by decide)

/-- C4. Still water is a fixed point of the stencil: a uniform depth with
zero momenta everywhere (ghosts included) is unchanged on every interior
cell by one `stepEuler`; in particular, in the end-to-end scenario
(4×4 interior, `dx = dy = 1`, `g = 9.81`, `h = 1`, `hu = hv = 0`,
`dt = 0.01`) one step leaves every interior cell at `h = 1`,
`hu = hv = 0` and sets `t = 0.01`. -/
theorem C4_flat_fixed_point :
    (∀ (p : Params) (dt c : ℚ) (s : SimState),
      (∀ i j, s.data.current.h i j = c) →
      (∀ i j, s.data.current.hu i j = 0) →
      (∀ i j, s.data.current.hv i j = 0) →
      ∀ i j, isInterior p i j →
        cellAt ((LxF.stepEuler p dt s).data.current) i j = ⟨c, 0, 0⟩)
    ∧ (∀ i j, isInterior p4 i j →
        cellAt ((LxF.stepEuler p4 (1 / 100) s4).data.current) i j = ⟨1, 0, 0⟩)
    ∧ (LxF.stepEuler p4 (1 / 100) s4).t = 1 / 100 := by
  have main : ∀ (p : Params) (dt c : ℚ) (s : SimState),
      (∀ i j, s.data.current.h i j = c) →
      (∀ i j, s.data.current.hu i j = 0) →
      (∀ i j, s.data.current.hv i j = 0) →
      ∀ i j, isInterior p i j →
        cellAt ((LxF.stepEuler p dt s).data.current) i j = ⟨c, 0, 0⟩ := by
    intro p dt c s hh hmu hmv i j hij
    rw [stepEuler_current, kernelLxF_interior _ _ _ _ _ _ hij]
    unfold lxfCell
    have hcell : ∀ a b, cellAt s.data.current a b = ⟨c, 0, 0⟩ := by
      intro a b
      unfold cellAt
      rw [hh, hmu, hmv]
    rw [hcell, hcell, hcell, hcell]
    simp only [lxfUpdate, fluxF, fluxG, Cons.mk.injEq]
    refine ⟨by ring, by ring, by ring⟩
  refine ⟨main, ?_, ?_⟩
  · intro i j hij
    exact main p4 (1 / 100) 1 s4 (fun _ _ => rfl) (fun _ _ => rfl)
      (fun _ _ => rfl) i j hij
  · rw [stepEuler_t]
    norm_num [s4]

/-- Exercises `C4_flat_fixed_point` in the end-to-end scenario at interior
cell `(2, 3)`. -/
theorem C4_flat_fixed_point_witness :
    cellAt ((LxF.stepEuler p4 (1 / 100) s4).data.current) 2 3 = ⟨1, 0, 0⟩
    ∧ (LxF.stepEuler p4 (1 / 100) s4).t = 1 / 100 :=
  ⟨C4_flat_fixed_point.2.1 2 3 (by decide), C4_flat_fixed_point.2.2⟩

theorem ovel_eq_vel (eps h m : ℚ) (he : 0 ≤ eps) :
    ovel eps h m = some (vel eps h m) := by
  unfold ovel vel
  by_cases hle : h ≤ eps
  · rw [if_pos hle, if_pos hle]
  · have hne : h ≠ 0 := by
      intro h0
      exact hle (h0 ▸ he)
    rw [if_neg hle, if_neg hle, if_neg hne]

theorem fluxFO_eq (g eps : ℚ) (q : Cons) (he : 0 ≤ eps) :
    fluxFO g eps q = some (fluxF g eps q) := by
  unfold fluxFO fluxF
  rw [ovel_eq_vel _ _ _ he, ovel_eq_vel _ _ _ he]
  rfl

theorem fluxGO_eq (g eps : ℚ) (q : Cons) (he : 0 ≤ eps) :
    fluxGO g eps q = some (fluxG g eps q) := by
  unfold fluxGO fluxG
  rw [ovel_eq_vel _ _ _ he, ovel_eq_vel _ _ _ he]
  rfl

theorem lxfUpdateO_eq (dx dy dt g eps : ℚ) (W E S N : Cons) (he : 0 ≤ eps) :
    lxfUpdateO dx dy dt g eps W E S N = some (lxfUpdate dx dy dt g eps W E S N) := by
  unfold lxfUpdateO lxfUpdate
  rw [fluxFO_eq _ _ _ he, fluxFO_eq _ _ _ he, fluxGO_eq _ _ _ he, fluxGO_eq _ _ _ he]
  rfl

/-- C6. With the mandatory zero-depth guard (velocity treated as zero when
`h` is at or below the positive threshold), one step on a state containing
a dry cell with nonzero momentum produces a definite (non-NaN/Inf) value at
every cell of the next generation — the NaN-aware kernel returns `some` of
the guarded kernel's value everywhere. -/
theorem C6_zero_depth_guard (p : Params) (dt : ℚ) (cur nxt : SWField)
    (heps : 0 ≤ p.eps) (a b : ℤ) (hdry : cur.h a b = 0) (hmom : cur.hu a b ≠ 0) :
    (∀ m, vel p.eps 0 m = 0)
    ∧ ∀ i j, kernelLxFO p dt cur nxt i j
        = some (cellAt (kernelLxF p dt cur nxt) i j) := by
  constructor
  · intro m
    unfold vel
    rw [if_pos heps]
  · intro i j
    unfold kernelLxFO
    by_cases hij : isInterior p i j
    · rw [if_pos hij, kernelLxF_interior _ _ _ _ _ _ hij]
      unfold lxfCell
      exact lxfUpdateO_eq _ _ _ _ _ _ _ _ _ heps
    · rw [if_neg hij, kernelLxF_ghost _ _ _ _ _ _ hij]

/-- Exercises `C6_zero_depth_guard` on the dry-bed state (`h = 0`,
`hu = 1` everywhere): the stencil value of cell `(1, 1)` is defined. -/
theorem C6_zero_depth_guard_witness :
    kernelLxFO p0 (1 / 100) dryField zeroField 1 1
      = some (cellAt (kernelLxF p0 (1 / 100) dryField zeroField) 1 1) :=
  (C6_zero_depth_guard p0 (1 / 100) dryField zeroField (by norm_num [p0]) 0 0
    rfl (by norm_num [dryField])).2 1 1

/-- C8. Construction from the initial arrays fails with
`DimensionMismatch` exactly when some supplied array's size differs from
`(nx+2)*(ny+2)`; on failure no simulator state is produced. -/
theorem C8_dimension_mismatch (nx ny : ℕ) (h0 hu0 hv0 : List ℚ) :
    ((∃ s, initSim nx ny h0 hu0 hv0 = .ok s)
      ↔ (h0.length = (nx + 2) * (ny + 2) ∧ hu0.length = (nx + 2) * (ny + 2)
          ∧ hv0.length = (nx + 2) * (ny + 2)))
    ∧ (¬ (h0.length = (nx + 2) * (ny + 2) ∧ hu0.length = (nx + 2) * (ny + 2)
          ∧ hv0.length = (nx + 2) * (ny + 2)) →
        initSim nx ny h0 hu0 hv0 = .error .DimensionMismatch) := by
  unfold initSim
  by_cases hc : h0.length = (nx + 2) * (ny + 2) ∧ hu0.length = (nx + 2) * (ny + 2)
      ∧ hv0.length = (nx + 2) * (ny + 2)
  · rw [if_pos hc]
    exact ⟨⟨fun _ => hc, fun _ => ⟨_, rfl⟩⟩, fun hn => absurd hc hn⟩
  · rw [if_neg hc]
    refine ⟨⟨fun hs => ?_, fun hl => absurd hl hc⟩, fun _ => rfl⟩
    obtain ⟨s, hs⟩ := hs
    exact absurd hs (by simp)

/-- Exercises `C8_dimension_mismatch`: a 1×1 grid fed empty arrays is
rejected with `DimensionMismatch`. -/
theorem C8_dimension_mismatch_witness :
    initSim 1 1 [] [] [] = .error .DimensionMismatch :=
  (C8_dimension_mismatch 1 1 [] [] []).2 (by norm_num)

theorem simulateEuler_zero (p : Params) (dt tEnd : ℚ) (s : SimState) :
    simulateEuler p dt tEnd s 0 = s := rfl

theorem simulateEuler_succ_lt (p : Params) (dt tEnd : ℚ) (s : SimState)
    (n : ℕ) (hlt : s.t < tEnd) :
    simulateEuler p dt tEnd s (n + 1)
      = simulateEuler p dt tEnd (LxF.stepEuler p (min dt (tEnd - s.t)) s) n := by
  conv_lhs => rw [simulateEuler]
  rw [if_pos hlt]

theorem simulateEuler_of_not_lt (p : Params) (dt tEnd : ℚ) (s : SimState)
    (h : ¬ s.t < tEnd) : ∀ n, simulateEuler p dt tEnd s n = s := by
  intro n
  cases n with
  | zero => rfl
  | succ n =>
    unfold simulateEuler
    rw [if_neg h]

theorem simulateEuler_le (p : Params) (dt tEnd : ℚ) :
    ∀ (n : ℕ) (s : SimState), s.t ≤ tEnd → (simulateEuler p dt tEnd s n).t ≤ tEnd := by
  intro n
  induction n with
  | zero => intro s hs; exact hs
  | succ n ih =>
    intro s hs
    by_cases hlt : s.t < tEnd
    · rw [simulateEuler_succ_lt p dt tEnd s n hlt]
      refine ih _ ?_
      rw [stepEuler_t]
      have : min dt (tEnd - s.t) ≤ tEnd - s.t := min_le_right _ _
      linarith
    · rw [simulateEuler_of_not_lt p dt tEnd s hlt]
      exact hs

theorem simulateEuler_mono (p : Params) (dt tEnd : ℚ) (hdt : 0 < dt) :
    ∀ (n : ℕ) (s : SimState), s.t ≤ (simulateEuler p dt tEnd s n).t := by
  intro n
  induction n with
  | zero => intro s; exact le_refl _
  | succ n ih =>
    intro s
    by_cases hlt : s.t < tEnd
    · rw [simulateEuler_succ_lt p dt tEnd s n hlt]
      have h1 : s.t ≤ (LxF.stepEuler p (min dt (tEnd - s.t)) s).t := by
        rw [stepEuler_t]
        have : (0 : ℚ) ≤ min dt (tEnd - s.t) :=
          le_min hdt.le (by linarith)
        linarith
      exact h1.trans (ih _)
    · rw [simulateEuler_of_not_lt p dt tEnd s hlt]

theorem simulateEuler_reaches (p : Params) (dt tEnd : ℚ) (hdt : 0 < dt) :
    ∀ (n : ℕ) (s : SimState), s.t < tEnd → tEnd - s.t ≤ n * dt →
      (simulateEuler p dt tEnd s n).t = tEnd := by
  intro n
  induction n with
  | zero =>
    intro s hlt hb
    simp only [Nat.cast_zero, zero_mul] at hb
    linarith
  | succ n ih =>
    intro s hlt hb
    rw [simulateEuler_succ_lt p dt tEnd s n hlt]
    by_cases hc : tEnd - s.t ≤ dt
    · have hmin : min dt (tEnd - s.t) = tEnd - s.t := min_eq_right hc
      have hstep : (LxF.stepEuler p (min dt (tEnd - s.t)) s).t = tEnd := by
        rw [stepEuler_t, hmin]
        ring
      rw [simulateEuler_of_not_lt p dt tEnd _ (by rw [hstep]; exact lt_irrefl _)]
      exact hstep
    · push_neg at hc
      have hmin : min dt (tEnd - s.t) = dt := min_eq_left hc.le
      have hstep : (LxF.stepEuler p (min dt (tEnd - s.t)) s).t = s.t + dt := by
        rw [stepEuler_t, hmin]
      refine ih _ ?_ ?_
      · rw [hstep]; linarith
      · rw [hstep]
        push_cast at hb ⊢
        linarith

theorem simulateEuler_sum (p : Params) (dt tEnd : ℚ) :
    ∀ (n : ℕ) (s : SimState),
      (simulateEuler p dt tEnd s n).t = s.t + (clampedDts dt tEnd s.t n).sum := by
  intro n
  induction n with
  | zero =>
    intro s
    rw [simulateEuler_zero]
    simp [clampedDts]
  | succ n ih =>
    intro s
    by_cases hlt : s.t < tEnd
    · rw [simulateEuler_succ_lt p dt tEnd s n hlt, ih, stepEuler_t]
      conv_rhs => rw [clampedDts]
      rw [if_pos hlt, List.sum_cons]
      ring
    · rw [simulateEuler_of_not_lt p dt tEnd s hlt]
      conv_rhs => rw [clampedDts]
      rw [if_neg hlt]
      simp

theorem clampedDts_pos (dt tEnd : ℚ) (hdt : 0 < dt) :
    ∀ (n : ℕ) (t : ℚ), ∀ d ∈ clampedDts dt tEnd t n, 0 < d := by
  intro n
  induction n with
  | zero => intro t d hd; simp [clampedDts] at hd
  | succ n ih =>
    intro t d hd
    unfold clampedDts at hd
    by_cases hlt : t < tEnd
    · rw [if_pos hlt, List.mem_cons] at hd
      rcases hd with hd | hd
      · rw [hd]
        exact lt_min hdt (by linarith)
      · exact ih _ _ hd
    · rw [if_neg hlt] at hd
      simp at hd

/-- C2. With a positive configured step size and `t_end > t_initial`,
`simulate(t_end)` never overshoots, reaches `t = t_end` exactly within
`⌈(t_end − t)/dt⌉` iterations, every step's size is the clamped
`min(dt, t_end − t)` and is positive, and the clock after any number of
steps equals the initial clock plus the sum of the clamped step sizes. -/
theorem C2_simulate_terminates (p : Params) (dt tEnd : ℚ) (s : SimState)
    (hdt : 0 < dt) (hlt : s.t < tEnd) :
    (∀ fuel, s.t ≤ (LxF.simulate p dt tEnd s fuel).t
      ∧ (LxF.simulate p dt tEnd s fuel).t ≤ tEnd)
    ∧ (LxF.simulate p dt tEnd s (Nat.ceil ((tEnd - s.t) / dt))).t = tEnd
    ∧ (∀ fuel, (LxF.simulate p dt tEnd s fuel).t
        = s.t + (clampedDts dt tEnd s.t fuel).sum)
    ∧ (∀ fuel, ∀ d ∈ clampedDts dt tEnd s.t fuel, 0 < d) := by
  refine ⟨?_, ?_, ?_, ?_⟩
  · intro fuel
    exact ⟨simulateEuler_mono p dt tEnd hdt fuel s,
      simulateEuler_le p dt tEnd fuel s hlt.le⟩
  · refine simulateEuler_reaches p dt tEnd hdt _ s hlt ?_
    have hceil : (tEnd - s.t) / dt ≤ (Nat.ceil ((tEnd - s.t) / dt) : ℚ) :=
      Nat.le_ceil _
    have := mul_le_mul_of_nonneg_right hceil hdt.le
    rwa [div_mul_cancel₀ _ hdt.ne'] at this
  · intro fuel
    exact simulateEuler_sum p dt tEnd fuel s
  · intro fuel
    exact clampedDts_pos dt tEnd hdt fuel s.t

/-- Exercises `C2_simulate_terminates`: from `t = 0` with `dt = 0.4` and
`t_end = 1`, the loop reaches exactly `t = 1` in `⌈1/0.4⌉ = 3` steps. -/
theorem C2_simulate_terminates_witness :
    (LxF.simulate p0 (2 / 5) 1 s0 (Nat.ceil ((1 - s0.t) / (2 / 5)))).t = 1 :=
  (C2_simulate_terminates p0 (2 / 5) 1 s0 (by norm_num)
    (by norm_num [s0])).2.1

/-- C7's amended behavior. The loop boundary does not reject a
non-positive `dt`: one iteration still advances the clock by the clamped
`min(dt, t_end − t)`, so a negative `dt` strictly decreases the clock,
while `dt = 0` leaves the clock unchanged (looping forever). -/
theorem C7_no_rejection (p : Params) (dt tEnd : ℚ) (s : SimState)
    (hdt : dt ≤ 0) (hlt : s.t < tEnd) :
    (LxF.simulate p dt tEnd s 1).t = s.t + min dt (tEnd - s.t)
    ∧ (dt < 0 → (LxF.simulate p dt tEnd s 1).t < s.t)
    ∧ (dt = 0 → ∀ fuel, (LxF.simulate p dt tEnd s fuel).t = s.t) := by
  have h1 : (LxF.simulate p dt tEnd s 1).t = s.t + min dt (tEnd - s.t) := by
    unfold LxF.simulate
    rw [simulateEuler_succ_lt p dt tEnd s 0 hlt, simulateEuler_zero, stepEuler_t]
  refine ⟨h1, ?_, ?_⟩
  · intro hneg
    rw [h1]
    have : min dt (tEnd - s.t) ≤ dt := min_le_left _ _
    linarith
  · intro h0
    subst h0
    have key : ∀ (fuel : ℕ) (s' : SimState),
        (simulateEuler p 0 tEnd s' fuel).t = s'.t := by
      intro fuel
      induction fuel with
      | zero => intro s'; rfl
      | succ n ih =>
        intro s'
        by_cases hlt' : s'.t < tEnd
        · rw [simulateEuler_succ_lt p 0 tEnd s' n hlt', ih, stepEuler_t,
            min_eq_left (by linarith)]
          ring
        · rw [simulateEuler_of_not_lt p 0 tEnd s' hlt']
    intro fuel
    exact key fuel s

/-- Exercises `C7_no_rejection` at `dt = −1`: the clock moves backward. -/
theorem C7_no_rejection_witness :
    (LxF.simulate p0 (-1) 1 s0 1).t < s0.t :=
  (C7_no_rejection p0 (-1) 1 s0 (by norm_num) (by norm_num [s0])).2.1
    (by norm_num)

/-- C7 as stated is false: invoking the loop with `dt = −1` from `t = 0`
(toward `t_end = 1`) does not leave the clock unchanged — it becomes
`−1`. -/
theorem C7_counterexample :
    (LxF.simulate p0 (-1) 1 s0 1).t ≠ s0.t := by
  have h1 : (LxF.simulate p0 (-1) 1 s0 1).t = s0.t + min (-1) (1 - s0.t) := by
    unfold LxF.simulate
    rw [simulateEuler_succ_lt p0 (-1) 1 s0 0 (by norm_num [s0]),
      simulateEuler_zero, stepEuler_t]
  rw [h1]
  norm_num [s0]

theorem zmod_sum_shift {k : ℕ} [NeZero k] (f : ZMod k → ℚ) (a : ZMod k) :
    ∑ i : ZMod k, f (i + a) = ∑ i : ZMod k, f i :=
  Fintype.sum_equiv (Equiv.addRight a) (fun x => f (x + a)) f (fun _ => rfl)

theorem zmod_sum_shift_sub {k : ℕ} [NeZero k] (f : ZMod k → ℚ) (a : ZMod k) :
    ∑ i : ZMod k, f (i - a) = ∑ i : ZMod k, f i := by
  have := zmod_sum_shift f (-a)
  simpa [sub_eq_add_neg] using this

theorem sumH_step (n m : ℕ) [NeZero n] [NeZero m] (dx dy dt g eps : ℚ)
    (c : PeriodicField n m) :
    sumH n m (stepPeriodic n m dx dy dt g eps c) = sumH n m c := by
  have hpt : ∀ (i : ZMod n) (j : ZMod m),
      (stepPeriodic n m dx dy dt g eps c).h i j
        = 0.25 * (c.h (i - 1) j + c.h (i + 1) j + c.h i (j - 1) + c.h i (j + 1))
          - dt / (2 * dx) * (c.hu (i + 1) j - c.hu (i - 1) j)
          - dt / (2 * dy) * (c.hv i (j + 1) - c.hv i (j - 1)) := fun i j => rfl
  have sh_im : (∑ i : ZMod n, ∑ j : ZMod m, c.h (i - 1) j)
      = ∑ i : ZMod n, ∑ j : ZMod m, c.h i j :=
    zmod_sum_shift_sub (fun i => ∑ j : ZMod m, c.h i j) 1
  have sh_ip : (∑ i : ZMod n, ∑ j : ZMod m, c.h (i + 1) j)
      = ∑ i : ZMod n, ∑ j : ZMod m, c.h i j :=
    zmod_sum_shift (fun i => ∑ j : ZMod m, c.h i j) 1
  have sh_jm : (∑ i : ZMod n, ∑ j : ZMod m, c.h i (j - 1))
      = ∑ i : ZMod n, ∑ j : ZMod m, c.h i j :=
    Finset.sum_congr rfl fun i _ => zmod_sum_shift_sub (fun j => c.h i j) 1
  have sh_jp : (∑ i : ZMod n, ∑ j : ZMod m, c.h i (j + 1))
      = ∑ i : ZMod n, ∑ j : ZMod m, c.h i j :=
    Finset.sum_congr rfl fun i _ => zmod_sum_shift (fun j => c.h i j) 1
  have shu_p : (∑ i : ZMod n, ∑ j : ZMod m, c.hu (i + 1) j)
      = ∑ i : ZMod n, ∑ j : ZMod m, c.hu i j :=
    zmod_sum_shift (fun i => ∑ j : ZMod m, c.hu i j) 1
  have shu_m : (∑ i : ZMod n, ∑ j : ZMod m, c.hu (i - 1) j)
      = ∑ i : ZMod n, ∑ j : ZMod m, c.hu i j :=
    zmod_sum_shift_sub (fun i => ∑ j : ZMod m, c.hu i j) 1
  have shv_p : (∑ i : ZMod n, ∑ j : ZMod m, c.hv i (j + 1))
      = ∑ i : ZMod n, ∑ j : ZMod m, c.hv i j :=
    Finset.sum_congr rfl fun i _ => zmod_sum_shift (fun j => c.hv i j) 1
  have shv_m : (∑ i : ZMod n, ∑ j : ZMod m, c.hv i (j - 1))
      = ∑ i : ZMod n, ∑ j : ZMod m, c.hv i j :=
    Finset.sum_congr rfl fun i _ => zmod_sum_shift_sub (fun j => c.hv i j) 1
  unfold sumH
  rw [Finset.sum_congr rfl fun i _ => Finset.sum_congr rfl fun j _ => hpt i j]
  simp only [Finset.sum_sub_distrib, Finset.sum_add_distrib, ← Finset.mul_sum]
  rw [sh_im, sh_ip, sh_jm, sh_jp, shu_p, shu_m, shv_p, shv_m]
  ring

theorem lxfCell_extendP (p : Params) (dt : ℚ) (c : PeriodicField p.nx p.ny)
    (i j : ℤ) :
    lxfCell p dt (extendP c) i j
      = pcellAt (stepPeriodic p.nx p.ny p.dx p.dy dt p.g p.eps c)
          ((i - 1 : ℤ) : ZMod p.nx) ((j - 1 : ℤ) : ZMod p.ny) := by
  unfold lxfCell stepPeriodic pcellAt extendP cellAt
  push_cast
  ring_nf

/-- C9. In a closed/periodic boundary configuration the spatial sum of `h`
is invariant across any number of steps: on the torus the sum is exactly
conserved by every iterate of the step, and on the ghost-cell grid one
`stepEuler` applied to the periodic extension computes exactly that torus
step on every interior cell. -/
theorem C9_conservation (p : Params) [NeZero p.nx] [NeZero p.ny] (dt : ℚ)
    (c : PeriodicField p.nx p.ny) :
    (∀ k : ℕ,
      sumH p.nx p.ny ((stepPeriodic p.nx p.ny p.dx p.dy dt p.g p.eps)^[k] c)
        = sumH p.nx p.ny c)
    ∧ ∀ (s : SimState), s.data.current = extendP c →
        ∀ i j, isInterior p i j →
          cellAt ((LxF.stepEuler p dt s).data.current) i j
            = pcellAt (stepPeriodic p.nx p.ny p.dx p.dy dt p.g p.eps c)
                ((i - 1 : ℤ) : ZMod p.nx) ((j - 1 : ℤ) : ZMod p.ny) := by
  constructor
  · intro k
    induction k with
    | zero => rfl
    | succ k ih =>
      rw [Function.iterate_succ_apply', sumH_step, ih]
  · intro s hcur i j hij
    rw [stepEuler_current, kernelLxF_interior _ _ _ _ _ _ hij, hcur]
    exact lxfCell_extendP p dt c i j

/-- Exercises `C9_conservation` on a concrete 2×2 torus: the depth sum is
unchanged after two steps, and interior cell `(1,1)` of the extended grid
matches the torus step. -/
theorem C9_conservation_witness :
    sumH 2 2 ((stepPeriodic 2 2 p0.dx p0.dy (1 / 100) p0.g p0.eps)^[2] cPer)
      = sumH 2 2 cPer
    ∧ cellAt ((LxF.stepEuler p0 (1 / 100) sExt).data.current) 1 1
        = pcellAt (stepPeriodic 2 2 p0.dx p0.dy (1 / 100) p0.g p0.eps cPer)
            ((1 - 1 : ℤ) : ZMod 2) ((1 - 1 : ℤ) : ZMod 2) :=
  ⟨(@C9_conservation p0 ⟨by decide⟩ ⟨by decide⟩ (1 / 100) cPer).1 2,
   (@C9_conservation p0 ⟨by decide⟩ ⟨by decide⟩ (1 / 100) cPer).2 sExt rfl 1 1
     (by decide)⟩

/-- Exercises `C10_deterministic` on two syntactically identical concrete
runs. -/
theorem C10_deterministic_witness :
    (LxF.stepEuler p0 (1 / 100) s0).t = (LxF.stepEuler p0 (1 / 100) s0).t
    ∧ (∀ i j, cellAt ((LxF.stepEuler p0 (1 / 100) s0).data.next) i j
        = cellAt ((LxF.stepEuler p0 (1 / 100) s0).data.next) i j) :=
  ⟨(C10_deterministic p0 (1 / 100) s0 s0 rfl rfl (fun _ _ => rfl)).1,
   (C10_deterministic p0 (1 / 100) s0 s0 rfl rfl (fun _ _ => rfl)).2.2.1⟩

end SW
